import Mathlib

/-!
Shallow embedding of the NTID identifier codec (`src/ntid.ts`).

Strings are modelled as `List Char` (one entry per Unicode scalar value) and
byte arrays as `List Nat` with entries below 256.  Fallible functions return
`Option` or `Except NtidError`.  JavaScript-specific behaviour is modelled
faithfully:

* the regular expression `^([^[]+)\[(.*)\]$` used by the splitter: `[^[]+`
  matches any character other than a left bracket (including line
  terminators), while `.` matches any character except the four ECMAScript
  line terminators (LF, CR, U+2028, U+2029), and `$` (without the `m` flag)
  anchors at the very end of the input;
* `Array.prototype.sort()` with no comparator, which sorts strings by their
  UTF-16 code-unit sequences; the result is modelled as the unique sorted
  permutation under that (total, antisymmetric) order;
* `atob` (WHATWG forgiving-base64 decode: strip ASCII whitespace, strip up to
  two trailing `=` when the length is a multiple of four, reject length ≡ 1
  mod 4 and non-alphabet characters, drop the trailing partial byte) and
  `btoa` (standard base64 encode with `=` padding).
-/

set_option maxRecDepth 20000

namespace Ntid

/-- Fixed random-body length (`NTID_LENGTH` in the source). -/
def NTID_LENGTH : Nat := 22

/-- The 64-symbol URL-safe base64 alphabet from the source. -/
def BASE_64_URL_ALPHABET : List Char :=
  "ABCDEFGHIJKLMNOPQRSTUVWXYZabcdefghijklmnopqrstuvwxyz0123456789-_".toList

/-- The standard base64 alphabet used by `atob` / `btoa`. -/
def STD_B64_ALPHABET : List Char :=
  "ABCDEFGHIJKLMNOPQRSTUVWXYZabcdefghijklmnopqrstuvwxyz0123456789+/".toList

/-- `makeId` from the source, with the 32 random bytes produced by the two
`uuidv4` calls made explicit as an argument: the first `NTID_LENGTH` bytes are
mapped through `BASE_64_URL_ALPHABET[byte % 64]` and wrapped in
`type ++ "[" ++ body ++ "]"`. -/
def makeId (type : List Char) (bytes : List Nat) : List Char :=
  type ++ '[' ::
    ((bytes.take NTID_LENGTH).map
      (fun byte => BASE_64_URL_ALPHABET.getD (byte % BASE_64_URL_ALPHABET.length) 'A'))
    ++ [']']

/-- `makeCompoundId` from the source: `type ++ "[" ++ ids.join(",") ++ "]"`. -/
def makeCompoundId (type : List Char) (ids : List (List Char)) : List Char :=
  type ++ '[' :: List.intercalate [','] ids ++ [']']

/-- UTF-16 code units of one Unicode scalar value (surrogate pair for
characters at or above U+10000). -/
def utf16Units (c : Char) : List Nat :=
  if c.toNat < 65536 then [c.toNat]
  else [55296 + (c.toNat - 65536) / 1024, 56320 + (c.toNat - 65536) % 1024]

/-- UTF-16 code-unit sequence of a string. -/
def utf16Encode (s : List Char) : List Nat :=
  (s.map utf16Units).flatten

/-- Strict lexicographic comparison of code-unit sequences, as performed by
the ECMAScript abstract `IsLessThan` operation on strings. -/
def lexLtUnits : List Nat → List Nat → Bool
  | _, [] => false
  | [], _ :: _ => true
  | a :: as, b :: bs =>
    if a < b then true
    else if b < a then false
    else lexLtUnits as bs

/-- Boolean form of the default-comparator order on strings. -/
def jsStringLe (a b : List Char) : Bool :=
  !(lexLtUnits (utf16Encode b) (utf16Encode a))

/-- Propositional form of the default-comparator order on strings. -/
def JsLe (a b : List Char) : Prop :=
  jsStringLe a b = true

instance : DecidableRel JsLe :=
  fun a b => inferInstanceAs (Decidable (jsStringLe a b = true))

/-- Sorting done by `Array.from(ids).sort()`: the sorted permutation of the
input under the default (UTF-16 code-unit) string order.  Since that order is
total and antisymmetric, every correct sorting algorithm returns this list. -/
def jsSortStrings (ids : List (List Char)) : List (List Char) :=
  List.insertionSort JsLe ids

/-- `makeSymmetricId` from the source: like `makeCompoundId`, after sorting
`ids` with the default JavaScript sort. -/
def makeSymmetricId (type : List Char) (ids : List (List Char)) : List Char :=
  makeCompoundId type (jsSortStrings ids)

/-- Characters matched by an unflagged ECMAScript `.`: everything except the
four line terminators. -/
def isDotChar (c : Char) : Bool :=
  !(c = '\n' || c = '\r' || c.toNat = 8232 || c.toNat = 8233)

/-- Split a string at its first `'['`: returns the (possibly empty) run of
non-`'['` characters before it and everything after it. -/
def splitFirstLBrack : List Char → Option (List Char × List Char)
  | [] => none
  | c :: cs =>
    if c = '[' then some ([], cs)
    else
      match splitFirstLBrack cs with
      | none => none
      | some (t, r) => some (c :: t, r)

/-- `getTypeAndInnerPart` from the source: match `^([^[]+)\[(.*)\]$` and
return the text before the first `'['` together with the text between the
first `'['` and the final `']'`; `none` models the `invariant` failure
(`InvalidFormat`). -/
def getTypeAndInnerPart (id : List Char) : Option (List Char × List Char) :=
  match splitFirstLBrack id with
  | none => none
  | some (t, r) =>
    if t = [] then none
    else if r.getLast? = some ']' then
      if r.dropLast.all isDotChar then some (t, r.dropLast) else none
    else none

/-- `getTypeFromId` from the source. -/
def getTypeFromId (id : List Char) : Option (List Char) :=
  (getTypeAndInnerPart id).map (fun p => p.1)

/-- `getInnerPartOfId` from the source. -/
def getInnerPartOfId (id : List Char) : Option (List Char) :=
  (getTypeAndInnerPart id).map (fun p => p.2)

/-- `reconstructIdFromTypeAndInnerPart` from the source:
`type ++ "[" ++ innerPart ++ "]"`. -/
def reconstructIdFromTypeAndInnerPart (type innerPart : List Char) : List Char :=
  type ++ '[' :: innerPart ++ [']']

/-- Error taxonomy of the codec: the parser invariant (`InvalidFormat`), the
length invariants (`LengthMismatch`), `atob` rejecting its input
(`InvalidCharacterError`), the 17-byte postcondition (`InternalError`) and the
trailing-`'A'` check during decoding (`CorruptEncoding`). -/
inductive NtidError
  | invalidFormat
  | lengthMismatch
  | invalidCharacter
  | internalError
  | corruptEncoding
deriving DecidableEq

instance {ε α : Type} [DecidableEq ε] [DecidableEq α] : DecidableEq (Except ε α) :=
  fun a b =>
    match a, b with
    | .error e1, .error e2 =>
      if h : e1 = e2 then .isTrue (by rw [h]) else .isFalse (fun hc => h (Except.error.inj hc))
    | .ok v1, .ok v2 =>
      if h : v1 = v2 then .isTrue (by rw [h]) else .isFalse (fun hc => h (Except.ok.inj hc))
    | .error _, .ok _ => .isFalse (fun hc => Except.noConfusion hc)
    | .ok _, .error _ => .isFalse (fun hc => Except.noConfusion hc)

/-- Value of a list of base-`base` digits, most significant first. -/
def digitsToNat (base : Nat) (ds : List Nat) : Nat :=
  ds.foldl (fun acc d => acc * base + d) 0

/-- The `len` base-`base` digits of `n % base ^ len`, most significant
first. -/
def natToDigitsBE (base : Nat) : Nat → Nat → List Nat
  | 0, _ => []
  | len + 1, n => n / base ^ len % base :: natToDigitsBE base len n

/-- Index of a character in a list of characters, if present. -/
def alphaIdx (c : Char) : List Char → Option Nat
  | [] => none
  | a :: as => if a = c then some 0 else (alphaIdx c as).map (fun i => i + 1)

/-- Value of a standard base64 digit character, if it is one. -/
def b64Value (c : Char) : Option Nat :=
  alphaIdx c STD_B64_ALPHABET

/-- Standard base64 digit character of a sextet value. -/
def b64CharOfVal (v : Nat) : Char :=
  STD_B64_ALPHABET.getD v 'A'

/-- The source's per-character translation to the standard alphabet: replace
every `'-'` by `'+'` and every `'_'` by `'/'`. -/
def b64UrlToB64 (c : Char) : Char :=
  if c = '-' then '+' else if c = '_' then '/' else c

/-- The source's per-character translation back to the URL-safe alphabet:
replace every `'+'` by `'-'` and every `'/'` by `'_'`. -/
def b64ToB64Url (c : Char) : Char :=
  if c = '+' then '-' else if c = '/' then '_' else c

/-- ASCII whitespace, stripped by forgiving-base64 decoding. -/
def isAsciiWhitespace (c : Char) : Bool :=
  c = '\t' || c = '\n' || c = '\x0c' || c = '\r' || c = ' '

/-- Forgiving-base64 step 2: remove one or two trailing `'='` characters. -/
def stripBase64Eq (l : List Char) : List Char :=
  match l.reverse with
  | '=' :: '=' :: r => r.reverse
  | '=' :: r => r.reverse
  | _ => l

/-- Map every character to its base64 value; `none` if any character is not a
standard base64 digit. -/
def allB64Values : List Char → Option (List Nat)
  | [] => some []
  | c :: cs =>
    match b64Value c, allB64Values cs with
    | some v, some vs => some (v :: vs)
    | _, _ => none

/-- The `atob` built-in (WHATWG forgiving-base64 decode), returning the
decoded bytes or `none` for `InvalidCharacterError`.  The sextets are packed
most significant first and the trailing `6 * count % 8` bits are dropped. -/
def atob (s : List Char) : Option (List Nat) :=
  let data := s.filter (fun c => !(isAsciiWhitespace c))
  let data2 := if data.length % 4 = 0 then stripBase64Eq data else data
  if data2.length % 4 = 1 then none
  else
    match allB64Values data2 with
    | none => none
    | some vals =>
      some (natToDigitsBE 256 (vals.length * 6 / 8)
        (digitsToNat 64 vals / 2 ^ (vals.length * 6 % 8)))

/-- The `btoa` built-in: standard base64 encoding of a byte sequence,
including `'='` padding to a multiple of four characters. -/
def btoa (bytes : List Nat) : List Char :=
  let nchars := (bytes.length * 8 + 5) / 6
  let m := digitsToNat 256 bytes * 2 ^ (nchars * 6 - bytes.length * 8)
  (natToDigitsBE 64 nchars m).map b64CharOfVal
    ++ List.replicate ((4 - nchars % 4) % 4) '='

/-- `encodeIdToBytes` from the source: extract the inner part, require 22
characters, append the zero sextet `'A'`, translate to the standard base64
alphabet, decode with `atob`, and require 17 bytes. -/
def encodeIdToBytes (id : List Char) : Except NtidError (List Nat) :=
  match getTypeAndInnerPart id with
  | none => .error .invalidFormat
  | some (_t, innerPart) =>
    if innerPart.length ≠ NTID_LENGTH then .error .lengthMismatch
    else
      match atob ((innerPart ++ ['A']).map b64UrlToB64) with
      | none => .error .invalidCharacter
      | some uint8Array =>
        if uint8Array.length ≠ 17 then .error .internalError
        else .ok uint8Array

/-- The source's removal of the trailing run of `'='` padding characters. -/
def stripTrailingEq (l : List Char) : List Char :=
  (l.reverse.dropWhile (fun c => c = '=')).reverse

/-- `decodeIdFromBytes` from the source: require 17 bytes, encode them with
`btoa`, translate to the URL-safe alphabet, strip `'='` padding, require a
trailing `'A'` (else `CorruptEncoding`), drop it and reconstruct the
identifier. -/
def decodeIdFromBytes (type : List Char) (bytes : List Nat) :
    Except NtidError (List Char) :=
  if bytes.length ≠ 17 then .error .lengthMismatch
  else
    let stripped := stripTrailingEq ((btoa bytes).map b64ToB64Url)
    if stripped.getLast? = some 'A' then
      .ok (reconstructIdFromTypeAndInnerPart type stripped.dropLast)
    else .error .corruptEncoding

/-- Strict code-point lexicographic comparison of strings.  Written from the
spec's words ("plain lexicographic (code-point) string ordering"), for
comparison with the source's UTF-16 code-unit order. -/
def lexLtCodePoint : List Char → List Char → Bool
  | _, [] => false
  | [], _ :: _ => true
  | a :: as, b :: bs =>
    if a.toNat < b.toNat then true
    else if b.toNat < a.toNat then false
    else lexLtCodePoint as bs

/-- Code-point order in propositional form (spec-side definition). -/
def CpLe (a b : List Char) : Prop :=
  lexLtCodePoint b a = false

instance : DecidableRel CpLe :=
  fun a b => inferInstanceAs (Decidable (lexLtCodePoint b a = false))

/-- Sorting by plain code-point order (spec-side definition, used to compare
the spec's claimed sort order with the source's). -/
def sortByCodePoint (ids : List (List Char)) : List (List Char) :=
  List.insertionSort CpLe ids

/-- Value of the character `c` in the URL-safe alphabet, read off through the
translation to the standard alphabet (proof-side abbreviation). -/
def b64UrlVal (c : Char) : Nat :=
  (b64Value (b64UrlToB64 c)).getD 0

theorem digitsToNat_aux (base : Nat) (ds : List Nat) :
    ∀ acc : Nat, List.foldl (fun a d => a * base + d) acc ds =
      acc * base ^ ds.length + digitsToNat base ds := by
  induction ds with
  | nil => intro acc; simp [digitsToNat]
  | cons d ds ih =>
    intro acc
    have h1 : digitsToNat base (d :: ds) = d * base ^ ds.length + digitsToNat base ds := by
      simp only [digitsToNat, List.foldl_cons, Nat.zero_mul, Nat.zero_add]
      exact ih d
    simp only [List.foldl_cons, List.length_cons, h1, ih (acc * base + d)]
    ring

theorem digitsToNat_cons (base d : Nat) (ds : List Nat) :
    digitsToNat base (d :: ds) = d * base ^ ds.length + digitsToNat base ds := by
  simp only [digitsToNat, List.foldl_cons, Nat.zero_mul, Nat.zero_add]
  exact digitsToNat_aux base ds d

theorem digitsToNat_append (base : Nat) (xs ys : List Nat) :
    digitsToNat base (xs ++ ys) =
      digitsToNat base xs * base ^ ys.length + digitsToNat base ys := by
  simp only [digitsToNat, List.foldl_append]
  exact digitsToNat_aux base ys _

theorem digitsToNat_lt (base : Nat) (ds : List Nat) (hb : 0 < base)
    (h : ∀ d ∈ ds, d < base) : digitsToNat base ds < base ^ ds.length := by
  induction ds with
  | nil => simp [digitsToNat]
  | cons d ds ih =>
    have hd : d < base := h d (List.mem_cons_self d ds)
    have ht : digitsToNat base ds < base ^ ds.length :=
      ih (fun x hx => h x (List.mem_cons_of_mem d hx))
    rw [digitsToNat_cons, List.length_cons, pow_succ]
    calc d * base ^ ds.length + digitsToNat base ds
        < d * base ^ ds.length + base ^ ds.length := by omega
      _ = (d + 1) * base ^ ds.length := by ring
      _ ≤ base * base ^ ds.length := Nat.mul_le_mul_right _ hd
      _ = base ^ ds.length * base := by ring

theorem natToDigitsBE_length (base len n : Nat) :
    (natToDigitsBE base len n).length = len := by
  induction len generalizing n with
  | zero => rfl
  | succ len ih => simp [natToDigitsBE, ih]

theorem natToDigitsBE_all_lt (base : Nat) (hb : 0 < base) (len n : Nat) :
    ∀ d ∈ natToDigitsBE base len n, d < base := by
  induction len generalizing n with
  | zero => intro d hd; simp [natToDigitsBE] at hd
  | succ len ih =>
    intro d hd
    rw [natToDigitsBE] at hd
    rcases List.mem_cons.mp hd with h | h
    · rw [h]; exact Nat.mod_lt _ hb
    · exact ih n d h

theorem natToDigitsBE_digitsToNat (base : Nat) (hb : 0 < base) (ds : List Nat)
    (h : ∀ d ∈ ds, d < base) :
    ∀ k : Nat, natToDigitsBE base ds.length (k * base ^ ds.length + digitsToNat base ds) = ds := by
  induction ds with
  | nil => intro k; rfl
  | cons d ds ih =>
    intro k
    have hd : d < base := h d (List.mem_cons_self d ds)
    have hmem : ∀ x ∈ ds, x < base := fun x hx => h x (List.mem_cons_of_mem d hx)
    have hT : digitsToNat base ds < base ^ ds.length := digitsToNat_lt base ds hb hmem
    have hpow : 0 < base ^ ds.length := Nat.pos_pow_of_pos _ hb
    have hn : k * base ^ (ds.length + 1) + digitsToNat base (d :: ds) =
        base ^ ds.length * (k * base + d) + digitsToNat base ds := by
      rw [digitsToNat_cons, pow_succ]; ring
    rw [List.length_cons, natToDigitsBE, hn]
    have hdiv : (base ^ ds.length * (k * base + d) + digitsToNat base ds) / base ^ ds.length
        = k * base + d := by
      rw [Nat.mul_add_div hpow, Nat.div_eq_of_lt hT, Nat.add_zero]
    have hmod : (k * base + d) % base = d := by
      rw [Nat.mul_comm k base, Nat.mul_add_mod, Nat.mod_eq_of_lt hd]
    rw [hdiv, hmod]
    have htail := ih hmem (k * base + d)
    rw [show (k * base + d) * base ^ ds.length + digitsToNat base ds =
      base ^ ds.length * (k * base + d) + digitsToNat base ds by ring] at htail
    rw [htail]

theorem digitsToNat_natToDigitsBE (base : Nat) (len n : Nat) :
    digitsToNat base (natToDigitsBE base len n) = n % base ^ len := by
  induction len generalizing n with
  | zero => simp [natToDigitsBE, digitsToNat, Nat.mod_one]
  | succ len ih =>
    rw [natToDigitsBE, digitsToNat_cons, natToDigitsBE_length, ih, pow_succ,
      Nat.mod_mul]
    ring

theorem natToDigitsBE_getLast (base : Nat) :
    ∀ len n : Nat, 0 < len → (natToDigitsBE base len n).getLast? = some (n % base)
  | 1, n, _ => by simp [natToDigitsBE]
  | len + 2, n, _ => by
    rw [natToDigitsBE, show natToDigitsBE base (len + 1) n =
      n / base ^ len % base :: natToDigitsBE base len n from rfl,
      List.getLast?_cons_cons,
      show n / base ^ len % base :: natToDigitsBE base len n =
        natToDigitsBE base (len + 1) n from rfl]
    exact natToDigitsBE_getLast base (len + 1) n (Nat.succ_pos len)

theorem eq_dropLast_concat_of_getLast {α : Type} {l : List α} {x : α}
    (h : l.getLast? = some x) : l = l.dropLast ++ [x] := by
  have hne : l ≠ [] := by
    intro h0
    rw [h0] at h
    simp at h
  have h2 := List.dropLast_append_getLast hne
  have h3 : l.getLast hne = x := by
    rw [List.getLast?_eq_getLast l hne] at h
    exact Option.some.inj h
  rw [← h3]
  exact h2.symm

theorem splitFirstLBrack_eq : ∀ {id t r : List Char},
    splitFirstLBrack id = some (t, r) → id = t ++ '[' :: r ∧ '[' ∉ t := by
  intro id
  induction id with
  | nil => intro t r h; simp [splitFirstLBrack] at h
  | cons c cs ih =>
    intro t r h
    rw [splitFirstLBrack] at h
    by_cases hc : c = '['
    · rw [if_pos hc] at h
      obtain ⟨ht, hr⟩ := Prod.mk.injEq .. ▸ Option.some.inj h
      subst ht; subst hr; subst hc
      exact ⟨rfl, List.not_mem_nil '['⟩
    · rw [if_neg hc] at h
      cases hsplit : splitFirstLBrack cs with
      | none => rw [hsplit] at h; exact absurd h (by simp)
      | some p =>
        obtain ⟨t2, r2⟩ := p
        rw [hsplit] at h
        obtain ⟨ht, hr⟩ := Prod.mk.injEq .. ▸ Option.some.inj h
        subst hr
        obtain ⟨he, hnm⟩ := ih hsplit
        subst ht
        constructor
        · rw [List.cons_append, ← he]
        · intro hmem
          rcases List.mem_cons.mp hmem with h1 | h1
          · exact hc h1.symm
          · exact hnm h1

theorem splitFirstLBrack_append (t r : List Char) (ht : '[' ∉ t) :
    splitFirstLBrack (t ++ '[' :: r) = some (t, r) := by
  induction t with
  | nil => simp [splitFirstLBrack]
  | cons c cs ih =>
    have hc : c ≠ '[' := fun h => ht (h ▸ List.mem_cons_self c cs)
    have ihh := ih (fun hm => ht (List.mem_cons_of_mem c hm))
    rw [List.cons_append, splitFirstLBrack, if_neg hc, ihh]

theorem getTypeAndInnerPart_append (t m : List Char) (ht0 : t ≠ []) (ht : '[' ∉ t)
    (hm : m.all isDotChar = true) :
    getTypeAndInnerPart (t ++ '[' :: (m ++ [']'])) = some (t, m) := by
  rw [getTypeAndInnerPart, splitFirstLBrack_append t (m ++ [']']) ht]
  simp only [if_neg ht0, List.getLast?_concat, if_pos rfl, List.dropLast_concat, hm, if_true]

theorem getTypeAndInnerPart_sound {id t m : List Char}
    (h : getTypeAndInnerPart id = some (t, m)) :
    id = t ++ '[' :: (m ++ [']']) ∧ t ≠ [] ∧ '[' ∉ t ∧ m.all isDotChar = true := by
  rw [getTypeAndInnerPart] at h
  cases hsplit : splitFirstLBrack id with
  | none => rw [hsplit] at h; exact absurd h (by simp)
  | some p =>
    obtain ⟨t2, r⟩ := p
    rw [hsplit] at h
    dsimp only at h
    by_cases ht0 : t2 = []
    · rw [if_pos ht0] at h; exact absurd h (by simp)
    · rw [if_neg ht0] at h
      by_cases hlast : r.getLast? = some ']'
      · rw [if_pos hlast] at h
        by_cases hdot : r.dropLast.all isDotChar
        · rw [if_pos hdot] at h
          obtain ⟨ht, hmm⟩ := Prod.mk.injEq .. ▸ Option.some.inj h
          subst ht
          obtain ⟨he, hnm⟩ := splitFirstLBrack_eq hsplit
          have hr : r = m ++ [']'] := by
            rw [← hmm]
            exact eq_dropLast_concat_of_getLast hlast
          exact ⟨by rw [he, hr], ht0, hnm, hmm ▸ hdot⟩
        · rw [if_neg hdot] at h; exact absurd h (by simp)
      · rw [if_neg hlast] at h; exact absurd h (by simp)

theorem alphabet_length : BASE_64_URL_ALPHABET.length = 64 := by decide

theorem alphabet_dot : ∀ c ∈ BASE_64_URL_ALPHABET, isDotChar c = true := by decide

theorem alphabet_not_ws : ∀ c ∈ BASE_64_URL_ALPHABET,
    isAsciiWhitespace (b64UrlToB64 c) = false := by decide

theorem alphabet_isSome : ∀ c ∈ BASE_64_URL_ALPHABET,
    (b64Value (b64UrlToB64 c)).isSome = true := by decide

theorem alphabet_val_lt : ∀ c ∈ BASE_64_URL_ALPHABET, b64UrlVal c < 64 := by decide

theorem alphabet_url_roundtrip : ∀ c ∈ BASE_64_URL_ALPHABET,
    b64ToB64Url (b64CharOfVal (b64UrlVal c)) = c := by decide

theorem getD_val (k : Nat) (hk : k < 64) :
    b64UrlVal (BASE_64_URL_ALPHABET.getD k 'A') = k := by
  revert k hk
  decide

theorem getD_mem (k : Nat) (hk : k < 64) :
    BASE_64_URL_ALPHABET.getD k 'A' ∈ BASE_64_URL_ALPHABET := by
  revert k hk
  decide

theorem url_char_ne_eq (v : Nat) (hv : v < 64) :
    b64ToB64Url (b64CharOfVal v) ≠ '=' := by
  revert v hv
  decide

theorem url_char_mem (v : Nat) (hv : v < 64) :
    b64ToB64Url (b64CharOfVal v) ∈ BASE_64_URL_ALPHABET := by
  revert v hv
  decide

theorem url_char_eq_A_iff (v : Nat) (hv : v < 64) :
    b64ToB64Url (b64CharOfVal v) = 'A' ↔ v = 0 := by
  revert v hv
  decide

theorem url_char_val (v : Nat) (hv : v < 64) :
    b64UrlVal (b64ToB64Url (b64CharOfVal v)) = v := by
  revert v hv
  decide

theorem allB64Values_eq_map (l : List Char) (h : ∀ c ∈ l, (b64Value c).isSome = true) :
    allB64Values l = some (l.map (fun c => (b64Value c).getD 0)) := by
  induction l with
  | nil => rfl
  | cons c cs ih =>
    have hc := h c (List.mem_cons_self c cs)
    obtain ⟨v, hv⟩ := Option.isSome_iff_exists.mp hc
    rw [allB64Values, hv, ih (fun x hx => h x (List.mem_cons_of_mem c hx))]
    simp [hv]

theorem stripTrailingEq_concat (xs : List Char) :
    stripTrailingEq (xs ++ ['=']) = stripTrailingEq xs := by
  rw [stripTrailingEq, stripTrailingEq, List.reverse_append]
  simp [List.dropWhile_cons]

theorem stripTrailingEq_no_eq (xs : List Char) (h : ∀ c ∈ xs, c ≠ '=') :
    stripTrailingEq xs = xs := by
  rw [stripTrailingEq]
  cases hrev : xs.reverse with
  | nil =>
    have : xs = [] := by simpa using congrArg List.reverse hrev
    simp [this]
  | cons c cs =>
    have hc : c ≠ '=' := by
      apply h c
      rw [← List.mem_reverse, hrev]
      exact List.mem_cons_self c cs
    rw [List.dropWhile_cons, if_neg (by simp [hc]), ← hrev, List.reverse_reverse]

theorem atob_of_alphabet (m : List Char) (hlen : m.length = 22)
    (hmem : ∀ c ∈ m, c ∈ BASE_64_URL_ALPHABET) :
    atob ((m ++ ['A']).map b64UrlToB64) =
      some (natToDigitsBE 256 17 (16 * digitsToNat 64 (m.map b64UrlVal))) := by
  have hmemA : ∀ c ∈ m ++ ['A'], c ∈ BASE_64_URL_ALPHABET := by
    intro c hc
    rcases List.mem_append.mp hc with h | h
    · exact hmem c h
    · rw [List.mem_singleton.mp h]; decide
  have hfilter : ((m ++ ['A']).map b64UrlToB64).filter (fun c => !(isAsciiWhitespace c))
      = (m ++ ['A']).map b64UrlToB64 := by
    apply List.filter_eq_self.mpr
    intro a ha
    obtain ⟨c, hc, he⟩ := List.mem_map.mp ha
    rw [← he, alphabet_not_ws c (hmemA c hc)]
    rfl
  have hlenl : ((m ++ ['A']).map b64UrlToB64).length = 23 := by
    simp [hlen]
  have hvals : allB64Values ((m ++ ['A']).map b64UrlToB64)
      = some (m.map b64UrlVal ++ [0]) := by
    rw [allB64Values_eq_map]
    · congr 1
      rw [List.map_map]
      show (m ++ ['A']).map b64UrlVal = m.map b64UrlVal ++ [0]
      rw [List.map_append]
      rfl
    · intro c hc
      obtain ⟨x, hx, he⟩ := List.mem_map.mp hc
      rw [← he]
      exact alphabet_isSome x (hmemA x hx)
  have hvlen : (m.map b64UrlVal ++ [0]).length = 23 := by
    simp [hlen]
  have hvnat : digitsToNat 64 (m.map b64UrlVal ++ [0]) =
      4 * (16 * digitsToNat 64 (m.map b64UrlVal)) := by
    rw [digitsToNat_append]
    show digitsToNat 64 (m.map b64UrlVal) * 64 ^ 1 + 0 = _
    ring
  rw [atob]
  simp only [hfilter]
  rw [hlenl, if_neg (by norm_num : ¬ (23 % 4 = 0))]
  rw [hlenl, if_neg (by norm_num : ¬ (23 % 4 = 1))]
  rw [hvals]
  dsimp only
  rw [hvlen]
  rw [show (23 * 6 / 8 : Nat) = 17 from by norm_num]
  rw [show ((2 : Nat) ^ (23 * 6 % 8)) = 4 from by norm_num]
  rw [hvnat, Nat.mul_div_cancel_left _ (by norm_num : (0:Nat) < 4)]

theorem encode_inner (t m : List Char) (ht0 : t ≠ []) (ht : '[' ∉ t)
    (hlen : m.length = 22) (hmem : ∀ c ∈ m, c ∈ BASE_64_URL_ALPHABET) :
    encodeIdToBytes (t ++ '[' :: (m ++ [']'])) =
      .ok (natToDigitsBE 256 17 (16 * digitsToNat 64 (m.map b64UrlVal))) := by
  have hdot : m.all isDotChar = true :=
    List.all_eq_true.mpr (fun c hc => alphabet_dot c (hmem c hc))
  rw [encodeIdToBytes, getTypeAndInnerPart_append t m ht0 ht hdot]
  dsimp only
  rw [if_neg (by simp [hlen, NTID_LENGTH]), atob_of_alphabet m hlen hmem]
  dsimp only
  rw [if_neg (by simp [natToDigitsBE_length])]

theorem decode_eq_of_lt (type : List Char) (n : Nat) (hn : n < 2 ^ 136) :
    decodeIdFromBytes type (natToDigitsBE 256 17 n) =
      if 4 * n % 64 = 0 then
        .ok (reconstructIdFromTypeAndInnerPart type
          ((natToDigitsBE 64 23 (4 * n)).dropLast.map
            (fun v => b64ToB64Url (b64CharOfVal v))))
      else .error .corruptEncoding := by
  have hlen17 : (natToDigitsBE 256 17 n).length = 17 := natToDigitsBE_length ..
  have hnmod : n % 256 ^ 17 = n := by
    apply Nat.mod_eq_of_lt
    calc n < 2 ^ 136 := hn
      _ = 256 ^ 17 := by norm_num
  have hbtoa : btoa (natToDigitsBE 256 17 n) =
      (natToDigitsBE 64 23 (4 * n)).map b64CharOfVal ++ ['='] := by
    rw [btoa]
    simp only [hlen17]
    rw [show ((17 * 8 + 5) / 6 : Nat) = 23 from by norm_num]
    rw [digitsToNat_natToDigitsBE, hnmod]
    rw [show ((2 : Nat) ^ (23 * 6 - 17 * 8)) = 4 from by norm_num]
    rw [Nat.mul_comm n 4]
    rw [show ((4 - 23 % 4) % 4 : Nat) = 1 from by norm_num]
    rfl
  have hdlt : ∀ v ∈ natToDigitsBE 64 23 (4 * n), v < 64 :=
    natToDigitsBE_all_lt 64 (by norm_num) 23 (4 * n)
  have hmapurl : ((natToDigitsBE 64 23 (4 * n)).map b64CharOfVal ++ ['=']).map b64ToB64Url
      = (natToDigitsBE 64 23 (4 * n)).map (fun v => b64ToB64Url (b64CharOfVal v)) ++ ['='] := by
    rw [List.map_append, List.map_map]
    rfl
  have hstrip : stripTrailingEq
      ((natToDigitsBE 64 23 (4 * n)).map (fun v => b64ToB64Url (b64CharOfVal v)) ++ ['='])
      = (natToDigitsBE 64 23 (4 * n)).map (fun v => b64ToB64Url (b64CharOfVal v)) := by
    rw [stripTrailingEq_concat]
    apply stripTrailingEq_no_eq
    intro c hc
    obtain ⟨v, hv, he⟩ := List.mem_map.mp hc
    rw [← he]
    exact url_char_ne_eq v (hdlt v hv)
  have hlast : ((natToDigitsBE 64 23 (4 * n)).map
      (fun v => b64ToB64Url (b64CharOfVal v))).getLast?
      = some (b64ToB64Url (b64CharOfVal (4 * n % 64))) := by
    rw [List.getLast?_map, natToDigitsBE_getLast 64 23 (4 * n) (by norm_num)]
    rfl
  rw [decodeIdFromBytes, if_neg (by simp [hlen17])]
  simp only [hbtoa, hmapurl, hstrip]
  by_cases h0 : 4 * n % 64 = 0
  · rw [if_pos h0]
    have hA : ((natToDigitsBE 64 23 (4 * n)).map
        (fun v => b64ToB64Url (b64CharOfVal v))).getLast? = some 'A' := by
      rw [hlast, h0]
      rfl
    rw [if_pos hA]
    have hdig : natToDigitsBE 64 23 (4 * n)
        = (natToDigitsBE 64 23 (4 * n)).dropLast ++ [4 * n % 64] :=
      eq_dropLast_concat_of_getLast (natToDigitsBE_getLast 64 23 (4 * n) (by norm_num))
    have hdl : ((natToDigitsBE 64 23 (4 * n)).map
        (fun v => b64ToB64Url (b64CharOfVal v))).dropLast
        = (natToDigitsBE 64 23 (4 * n)).dropLast.map
          (fun v => b64ToB64Url (b64CharOfVal v)) := by
      conv_lhs => rw [hdig]
      rw [List.map_append]
      rw [show List.map (fun v => b64ToB64Url (b64CharOfVal v)) [4 * n % 64]
        = [b64ToB64Url (b64CharOfVal (4 * n % 64))] from rfl]
      rw [List.dropLast_concat]
    rw [hdl]
  · rw [if_neg h0]
    have hne : ¬ ((natToDigitsBE 64 23 (4 * n)).map
        (fun v => b64ToB64Url (b64CharOfVal v))).getLast? = some 'A' := by
      rw [hlast]
      intro hcon
      have h64 : 4 * n % 64 < 64 := Nat.mod_lt _ (by norm_num)
      exact h0 ((url_char_eq_A_iff (4 * n % 64) h64).mp (Option.some.inj hcon))
    rw [if_neg hne]

theorem lexLtUnits_asymm : ∀ (a b : List Nat),
    lexLtUnits a b = true → lexLtUnits b a = false
  | [], [], h => by simp [lexLtUnits] at h
  | [], _ :: _, _ => by simp [lexLtUnits]
  | _ :: _, [], h => by simp [lexLtUnits] at h
  | a :: as, b :: bs, h => by
    rw [lexLtUnits] at h ⊢
    by_cases h1 : a < b
    · rw [if_neg (by omega : ¬ b < a), if_pos h1]
    · rw [if_neg h1] at h
      by_cases h2 : b < a
      · rw [if_pos h2] at h; exact absurd h (by simp)
      · rw [if_neg h2] at h
        rw [if_neg h2, if_neg h1]
        exact lexLtUnits_asymm as bs h

theorem lexLtUnits_eq_of_not : ∀ (a b : List Nat),
    lexLtUnits a b = false → lexLtUnits b a = false → a = b
  | [], [], _, _ => rfl
  | [], _ :: _, h, _ => by simp [lexLtUnits] at h
  | _ :: _, [], _, h2 => by simp [lexLtUnits] at h2
  | a :: as, b :: bs, h, h2 => by
    rw [lexLtUnits] at h h2
    by_cases h1 : a < b
    · rw [if_pos h1] at h; exact absurd h (by simp)
    · by_cases h3 : b < a
      · rw [if_pos h3] at h2; exact absurd h2 (by simp)
      · have hab : a = b := by omega
        rw [if_neg h1, if_neg h3] at h
        rw [if_neg h3, if_neg h1] at h2
        rw [hab, lexLtUnits_eq_of_not as bs h h2]

theorem lexLtUnits_trans : ∀ (a b c : List Nat),
    lexLtUnits a b = true → lexLtUnits b c = true → lexLtUnits a c = true
  | _, b, [], _, h2 => by cases b <;> simp [lexLtUnits] at h2
  | [], _ :: _, _ :: _, _, _ => by simp [lexLtUnits]
  | _ :: _, [], _ :: _, h1, _ => by simp [lexLtUnits] at h1
  | a :: as, b :: bs, c :: cs, h1, h2 => by
    rw [lexLtUnits] at h1 h2 ⊢
    by_cases hab : a < b
    · by_cases hbc : b < c
      · rw [if_pos (by omega : a < c)]
      · rw [if_neg hbc] at h2
        by_cases hcb : c < b
        · rw [if_pos hcb] at h2; exact absurd h2 (by simp)
        · rw [if_pos (by omega : a < c)]
    · rw [if_neg hab] at h1
      by_cases hba : b < a
      · rw [if_pos hba] at h1; exact absurd h1 (by simp)
      · rw [if_neg hba] at h1
        by_cases hbc : b < c
        · rw [if_pos (by omega : a < c)]
        · rw [if_neg hbc] at h2
          by_cases hcb : c < b
          · rw [if_pos hcb] at h2; exact absurd h2 (by simp)
          · rw [if_neg hcb] at h2
            rw [if_neg (by omega : ¬ a < c), if_neg (by omega : ¬ c < a)]
            exact lexLtUnits_trans as bs cs h1 h2

theorem char_toNat_inj {a b : Char} (h : a.toNat = b.toNat) : a = b := by
  apply Char.ext
  apply UInt32.toNat.inj
  exact h

theorem char_valid_toNat (c : Char) :
    c.toNat < 55296 ∨ (57343 < c.toNat ∧ c.toNat < 1114112) := c.valid

theorem utf16Units_append_inj {c₁ c₂ : Char} {xs ys : List Nat}
    (h : utf16Units c₁ ++ xs = utf16Units c₂ ++ ys) : c₁ = c₂ ∧ xs = ys := by
  have v₁ := char_valid_toNat c₁
  have v₂ := char_valid_toNat c₂
  rw [utf16Units, utf16Units] at h
  by_cases h1 : c₁.toNat < 65536 <;> by_cases h2 : c₂.toNat < 65536
  · rw [if_pos h1, if_pos h2] at h
    simp only [List.singleton_append, List.cons.injEq] at h
    exact ⟨char_toNat_inj h.1, h.2⟩
  · rw [if_pos h1, if_neg h2] at h
    simp only [List.singleton_append, List.cons_append, List.cons.injEq] at h
    exact absurd h.1 (by omega)
  · rw [if_neg h1, if_pos h2] at h
    simp only [List.singleton_append, List.cons_append, List.cons.injEq] at h
    exact absurd h.1 (by omega)
  · rw [if_neg h1, if_neg h2] at h
    simp only [List.cons_append, List.cons.injEq] at h
    obtain ⟨hh, hl, hrest⟩ := h
    refine ⟨char_toNat_inj (by omega), hrest⟩

theorem utf16Encode_inj : ∀ {a b : List Char}, utf16Encode a = utf16Encode b → a = b := by
  intro a
  induction a with
  | nil =>
    intro b h
    cases b with
    | nil => rfl
    | cons d ds =>
      exfalso
      rw [utf16Encode, utf16Encode, List.map_nil, List.map_cons] at h
      rw [List.flatten_nil, List.flatten_cons] at h
      have hne : utf16Units d ≠ [] := by
        rw [utf16Units]
        by_cases hd : d.toNat < 65536 <;> simp [hd]
      cases hu : utf16Units d with
      | nil => exact hne hu
      | cons u us => rw [hu] at h; exact absurd h (by simp)
  | cons c cs ih =>
    intro b h
    cases b with
    | nil =>
      exfalso
      rw [utf16Encode, utf16Encode, List.map_nil, List.map_cons] at h
      rw [List.flatten_nil, List.flatten_cons] at h
      have hne : utf16Units c ≠ [] := by
        rw [utf16Units]
        by_cases hc : c.toNat < 65536 <;> simp [hc]
      cases hu : utf16Units c with
      | nil => exact hne hu
      | cons u us => rw [hu] at h; exact absurd h (by simp)
    | cons d ds =>
      rw [utf16Encode, utf16Encode, List.map_cons, List.map_cons,
        List.flatten_cons, List.flatten_cons] at h
      obtain ⟨hc, hrest⟩ := utf16Units_append_inj h
      rw [hc, ih hrest]

theorem jsStringLe_total (a b : List Char) : jsStringLe a b = true ∨ jsStringLe b a = true := by
  rw [jsStringLe, jsStringLe]
  by_cases h : lexLtUnits (utf16Encode b) (utf16Encode a) = true
  · right
    rw [lexLtUnits_asymm _ _ h]
    rfl
  · left
    rw [eq_false_of_ne_true h]
    rfl

theorem jsStringLe_trans {a b c : List Char} (h1 : jsStringLe a b = true)
    (h2 : jsStringLe b c = true) : jsStringLe a c = true := by
  simp only [jsStringLe, Bool.not_eq_true'] at h1 h2 ⊢
  by_cases h : lexLtUnits (utf16Encode c) (utf16Encode a) = true
  · exfalso
    by_cases h3 : lexLtUnits (utf16Encode a) (utf16Encode b) = true
    · have hcb := lexLtUnits_trans _ _ _ h h3
      rw [hcb] at h2
      exact absurd h2 (by simp)
    · have heq := lexLtUnits_eq_of_not _ _ (eq_false_of_ne_true h3) h1
      rw [heq] at h
      rw [h] at h2
      exact absurd h2 (by simp)
  · exact eq_false_of_ne_true h

theorem jsStringLe_antisymm {a b : List Char} (h1 : jsStringLe a b = true)
    (h2 : jsStringLe b a = true) : a = b := by
  simp only [jsStringLe, Bool.not_eq_true'] at h1 h2
  exact utf16Encode_inj (lexLtUnits_eq_of_not _ _ h2 h1)

instance : IsTotal (List Char) JsLe :=
  ⟨fun a b => jsStringLe_total a b⟩

instance : IsTrans (List Char) JsLe :=
  ⟨fun _ _ _ h1 h2 => jsStringLe_trans h1 h2⟩

instance : IsAntisymm (List Char) JsLe :=
  ⟨fun _ _ h1 h2 => jsStringLe_antisymm h1 h2⟩

theorem jsSortStrings_eq_of_perm {l₁ l₂ : List (List Char)} (h : l₁.Perm l₂) :
    jsSortStrings l₁ = jsSortStrings l₂ := by
  apply List.eq_of_perm_of_sorted (r := JsLe)
  · exact (List.perm_insertionSort JsLe l₁).trans (h.trans (List.perm_insertionSort JsLe l₂).symm)
  · exact List.sorted_insertionSort JsLe l₁
  · exact List.sorted_insertionSort JsLe l₂

theorem reconstruct_eq (t m : List Char) :
    reconstructIdFromTypeAndInnerPart t m = t ++ '[' :: (m ++ [']']) := by
  rw [reconstructIdFromTypeAndInnerPart, List.append_assoc, List.cons_append]

theorem makeId_eq (type : List Char) (bytes : List Nat) :
    makeId type bytes = type ++ '[' ::
      (((bytes.take NTID_LENGTH).map
        (fun byte => BASE_64_URL_ALPHABET.getD (byte % BASE_64_URL_ALPHABET.length) 'A'))
        ++ [']']) := by
  rw [makeId, List.append_assoc, List.cons_append]

theorem makeCompoundId_eq (type : List Char) (ids : List (List Char)) :
    makeCompoundId type ids = type ++ '[' :: (List.intercalate [','] ids ++ [']']) := by
  rw [makeCompoundId, List.append_assoc, List.cons_append]

theorem map_url_val_eq (m : List Char) (hmem : ∀ c ∈ m, c ∈ BASE_64_URL_ALPHABET) :
    (m.map b64UrlVal).map (fun v => b64ToB64Url (b64CharOfVal v)) = m := by
  rw [List.map_map]
  have h : ∀ c ∈ m, ((fun v => b64ToB64Url (b64CharOfVal v)) ∘ b64UrlVal) c = id c :=
    fun c hc => alphabet_url_roundtrip c (hmem c hc)
  rw [List.map_congr_left h, List.map_id]

theorem roundtrip_inner (type m : List Char) (h1 : type ≠ []) (h2 : '[' ∉ type)
    (hlen : m.length = 22) (hmem : ∀ c ∈ m, c ∈ BASE_64_URL_ALPHABET) :
    encodeIdToBytes (type ++ '[' :: (m ++ [']'])) =
      .ok (natToDigitsBE 256 17 (16 * digitsToNat 64 (m.map b64UrlVal)))
    ∧ decodeIdFromBytes type (natToDigitsBE 256 17 (16 * digitsToNat 64 (m.map b64UrlVal)))
      = .ok (type ++ '[' :: (m ++ [']'])) := by
  have hvlt : ∀ v ∈ m.map b64UrlVal, v < 64 := by
    intro v hv
    obtain ⟨c, hc, he⟩ := List.mem_map.mp hv
    rw [← he]
    exact alphabet_val_lt c (hmem c hc)
  have hmaplen : (m.map b64UrlVal).length = 22 := by simp [hlen]
  have hDlt : digitsToNat 64 (m.map b64UrlVal) < 2 ^ 132 := by
    have h := digitsToNat_lt 64 (m.map b64UrlVal) (by norm_num) hvlt
    rw [hmaplen] at h
    calc digitsToNat 64 (m.map b64UrlVal) < 64 ^ 22 := h
      _ = 2 ^ 132 := by norm_num
  have h16D : 16 * digitsToNat 64 (m.map b64UrlVal) < 2 ^ 136 := by
    calc 16 * digitsToNat 64 (m.map b64UrlVal) < 16 * 2 ^ 132 := by omega
      _ = 2 ^ 136 := by norm_num
  refine ⟨encode_inner type m h1 h2 hlen hmem, ?_⟩
  rw [decode_eq_of_lt type _ h16D]
  have h640 : 4 * (16 * digitsToNat 64 (m.map b64UrlVal)) % 64 = 0 := by
    rw [show 4 * (16 * digitsToNat 64 (m.map b64UrlVal))
      = 64 * digitsToNat 64 (m.map b64UrlVal) from by ring]
    exact Nat.mul_mod_right 64 _
  rw [if_pos h640]
  have hvals : natToDigitsBE 64 23 (4 * (16 * digitsToNat 64 (m.map b64UrlVal)))
      = m.map b64UrlVal ++ [0] := by
    have hall : ∀ v ∈ m.map b64UrlVal ++ [0], v < 64 := by
      intro v hv
      rcases List.mem_append.mp hv with h | h
      · exact hvlt v h
      · rw [List.mem_singleton.mp h]; norm_num
    have hlen23 : (m.map b64UrlVal ++ [0]).length = 23 := by simp [hlen]
    have harg : 4 * (16 * digitsToNat 64 (m.map b64UrlVal))
        = 0 * 64 ^ 23 + digitsToNat 64 (m.map b64UrlVal ++ [0]) := by
      rw [digitsToNat_append]
      show _ = 0 * 64 ^ 23 + (digitsToNat 64 (m.map b64UrlVal) * 64 ^ 1 + 0)
      ring
    rw [harg, ← hlen23, natToDigitsBE_digitsToNat 64 (by norm_num) _ hall 0]
  rw [hvals, List.dropLast_concat, map_url_val_eq m hmem, reconstruct_eq]

/-- C1: transcoder round-trip.  For every non-empty type containing no left
bracket and every value of the 32 random bytes consumed by `makeId`, encoding
the generated identifier succeeds and decoding the resulting bytes returns the
identifier unchanged. -/
theorem C1_transcoder_roundtrip (type : List Char) (bytes : List Nat)
    (h1 : type ≠ []) (h2 : '[' ∉ type) (h3 : bytes.length = 32) :
    ∃ bs : List Nat, encodeIdToBytes (makeId type bytes) = .ok bs
      ∧ decodeIdFromBytes type bs = .ok (makeId type bytes) := by
  have hmlen : ((bytes.take NTID_LENGTH).map
      (fun byte => BASE_64_URL_ALPHABET.getD (byte % BASE_64_URL_ALPHABET.length) 'A')).length
      = 22 := by
    simp [h3, NTID_LENGTH]
  have hmmem : ∀ c ∈ (bytes.take NTID_LENGTH).map
      (fun byte => BASE_64_URL_ALPHABET.getD (byte % BASE_64_URL_ALPHABET.length) 'A'),
      c ∈ BASE_64_URL_ALPHABET := by
    intro c hc
    obtain ⟨x, _, he⟩ := List.mem_map.mp hc
    rw [← he, alphabet_length]
    exact getD_mem _ (Nat.mod_lt _ (by norm_num))
  obtain ⟨he, hd⟩ := roundtrip_inner type _ h1 h2 hmlen hmmem
  rw [makeId_eq]
  exact ⟨_, he, hd⟩

/-- C1 witness: the round-trip at the concrete type `"T"` and the concrete
byte values `0, 1, ..., 31`. -/
theorem C1_transcoder_roundtrip_witness :
    ∃ bs : List Nat, encodeIdToBytes (makeId ['T'] (List.range 32)) = .ok bs
      ∧ decodeIdFromBytes ['T'] bs = .ok (makeId ['T'] (List.range 32)) :=
  C1_transcoder_roundtrip ['T'] (List.range 32) (by decide) (by decide) (by decide)

/-- C3: parser round-trip.  Whenever the split succeeds,
reconstructing from the extracted type and inner part reproduces the original
string exactly, and `getTypeFromId` / `getInnerPartOfId` return the two
components. -/
theorem C3_parser_roundtrip (id t m : List Char)
    (h : getTypeAndInnerPart id = some (t, m)) :
    reconstructIdFromTypeAndInnerPart t m = id
    ∧ getTypeFromId id = some t
    ∧ getInnerPartOfId id = some m := by
  obtain ⟨he, _, _, _⟩ := getTypeAndInnerPart_sound h
  refine ⟨?_, ?_, ?_⟩
  · rw [reconstruct_eq]
    exact he.symm
  · rw [getTypeFromId, h]; rfl
  · rw [getInnerPartOfId, h]; rfl

/-- C3 witness: round-trip on the concrete identifier string `"a[b]"`. -/
theorem C3_parser_roundtrip_witness :
    reconstructIdFromTypeAndInnerPart ['a'] ['b'] = ['a', '[', 'b', ']'] :=
  (C3_parser_roundtrip ['a', '[', 'b', ']'] ['a'] ['b'] (by decide)).1

/-- C5: generator shape.  For every valid type and every value of the 32
random bytes, `makeId type bytes` is `type ++ "[" ++ body ++ "]"` where `body`
maps each of the first 22 bytes through `alphabet[byte mod 64]`; the result has
length `len type + 2 + 22`, ends in `']'`, and every body character belongs to
the 64-character alphabet. -/
theorem C5_generator_shape (type : List Char) (bytes : List Nat)
    (h1 : type ≠ []) (h2 : '[' ∉ type) (h3 : bytes.length = 32) :
    makeId type bytes = type ++ '[' ::
      (((bytes.take 22).map (fun byte => BASE_64_URL_ALPHABET.getD (byte % 64) 'A')) ++ [']'])
    ∧ (makeId type bytes).length = type.length + 2 + 22
    ∧ (makeId type bytes).getLast? = some ']'
    ∧ ∀ c ∈ (bytes.take 22).map (fun byte => BASE_64_URL_ALPHABET.getD (byte % 64) 'A'),
        c ∈ BASE_64_URL_ALPHABET := by
  have hbody : makeId type bytes = type ++ '[' ::
      (((bytes.take 22).map (fun byte => BASE_64_URL_ALPHABET.getD (byte % 64) 'A')) ++ [']']) := by
    rw [makeId, NTID_LENGTH, alphabet_length, List.append_assoc, List.cons_append]
  refine ⟨hbody, ?_, ?_, ?_⟩
  · rw [hbody]
    simp [h3]
  · rw [hbody, ← List.cons_append, ← List.append_assoc]
    exact List.getLast?_concat _
  · intro c hc
    obtain ⟨x, _, he⟩ := List.mem_map.mp hc
    rw [← he]
    exact getD_mem _ (Nat.mod_lt _ (by norm_num))

/-- C5 witness: the generator shape at the concrete type `"T"` and the byte
values `0, 1, ..., 31`. -/
theorem C5_generator_shape_witness :
    (makeId ['T'] (List.range 32)).length = 1 + 2 + 22 :=
  (C5_generator_shape ['T'] (List.range 32) (by decide) (by decide) (by decide)).2.1

/-- C4 counterexample: the claim says the sort order is plain code-point
order, but the JavaScript default sort compares UTF-16 code units, and the two
orders disagree on identifiers containing U+FFFF versus U+10000: sorting the
two identifiers `T[U+10000]` and `T[U+FFFF]` by code points puts `T[U+FFFF]`
first, while `makeSymmetricId` puts `T[U+10000]` first. -/
theorem C4_symmetric_sort_counterexample :
    makeSymmetricId ['T'] [['T', '[', Char.ofNat 65536, ']'], ['T', '[', Char.ofNat 65535, ']']]
      ≠ makeCompoundId ['T']
        (sortByCodePoint [['T', '[', Char.ofNat 65536, ']'], ['T', '[', Char.ofNat 65535, ']']]) := by
  decide

/-- C4 (amended): `makeSymmetricId type ids` equals `makeCompoundId` of `ids`
sorted by the JavaScript default string order, which compares UTF-16 code-unit
sequences (this coincides with code-point order on strings confined to the
basic multilingual plane); consequently any two permutations of the same
multiset of identifier strings produce byte-identical output. -/
theorem C4_symmetric_amended (type : List Char) (ids1 ids2 : List (List Char))
    (h : ids1.Perm ids2) :
    makeSymmetricId type ids1 = makeCompoundId type (jsSortStrings ids1)
    ∧ makeSymmetricId type ids1 = makeSymmetricId type ids2 := by
  refine ⟨rfl, ?_⟩
  rw [makeSymmetricId, makeSymmetricId, jsSortStrings_eq_of_perm h]

/-- C4 witness: swapping the two elements of a concrete list leaves
`makeSymmetricId` unchanged. -/
theorem C4_symmetric_amended_witness :
    makeSymmetricId ['T'] [['b'], ['a']] = makeSymmetricId ['T'] [['a'], ['b']] :=
  (C4_symmetric_amended ['T'] [['b'], ['a']] [['a'], ['b']] (by decide)).2

/-- C6 counterexample: the identifiers `"a\nb[AAAAAAAAAAAAAAAAAAAAAA]"` and
`"U[AAAAAAAAAAAAAAAAAAAAAA]"` are both well-formed (the parser splits them),
and `"T"` is a valid type, yet `getTypeFromId` fails on the compound built
from them, because the embedded line feed is not matched by the `.` in the
parser's regular expression. -/
theorem C6_compound_type_counterexample :
    (getTypeAndInnerPart ("a\nb[AAAAAAAAAAAAAAAAAAAAAA]".toList)).isSome = true
    ∧ (getTypeAndInnerPart ("U[AAAAAAAAAAAAAAAAAAAAAA]".toList)).isSome = true
    ∧ ("T".toList ≠ [] ∧ '[' ∉ "T".toList)
    ∧ getTypeFromId (makeCompoundId "T".toList
        ["a\nb[AAAAAAAAAAAAAAAAAAAAAA]".toList, "U[AAAAAAAAAAAAAAAAAAAAAA]".toList])
      ≠ some "T".toList := by
  decide

theorem intercalate_pair (id1 id2 : List Char) :
    List.intercalate [','] [id1, id2] = id1 ++ ',' :: id2 := by
  simp [List.intercalate, List.intersperse]

/-- C6 (amended): compound type extraction.  For every non-empty type
containing no left bracket and all well-formed identifiers `id1`, `id2` that
contain no line-terminator characters,
`getTypeFromId (makeCompoundId type [id1, id2])` returns `type`. -/
theorem C6_compound_type_amended (type id1 id2 : List Char)
    (h1 : type ≠ []) (h2 : '[' ∉ type)
    (h3 : (getTypeAndInnerPart id1).isSome = true)
    (h4 : (getTypeAndInnerPart id2).isSome = true)
    (h5 : id1.all isDotChar = true) (h6 : id2.all isDotChar = true) :
    getTypeFromId (makeCompoundId type [id1, id2]) = some type := by
  have hm : (id1 ++ ',' :: id2).all isDotChar = true := by
    rw [List.all_eq_true] at h5 h6 ⊢
    intro c hc
    rcases List.mem_append.mp hc with h | h
    · exact h5 c h
    · rcases List.mem_cons.mp h with h | h
      · rw [h]; rfl
      · exact h6 c h
  rw [getTypeFromId, makeCompoundId_eq, intercalate_pair,
    getTypeAndInnerPart_append type (id1 ++ ',' :: id2) h1 h2 hm]
  rfl

/-- C6 witness: compound type extraction at concrete inputs `"T"`, `"a[x]"`
and `"U[y]"`. -/
theorem C6_compound_type_amended_witness :
    getTypeFromId (makeCompoundId ['T'] ["a[x]".toList, "U[y]".toList]) = some ['T'] :=
  C6_compound_type_amended ['T'] "a[x]".toList "U[y]".toList
    (by decide) (by decide) (by decide) (by decide) (by decide) (by decide)

/-- C7 counterexample: the string `"a[\n]"` matches the claimed shape (one or
more non-bracket characters, a left bracket, any characters, a final right
bracket at the end of the string), yet both parser accessors fail on it,
because the regular expression's `.` does not match a line feed. -/
theorem C7_validation_counterexample :
    (∃ t m : List Char, "a[\n]".toList = t ++ '[' :: (m ++ [']']) ∧ t ≠ [] ∧ '[' ∉ t)
    ∧ getTypeFromId "a[\n]".toList = none
    ∧ getInnerPartOfId "a[\n]".toList = none :=
  ⟨⟨['a'], ['\n'], by decide, by decide, by decide⟩, by decide, by decide⟩

/-- C7 (amended): parser validation.  The split fails exactly when the string
is not of the form `t ++ "[" ++ m ++ "]"` with `t` non-empty and free of left
brackets and `m` free of the four ECMAScript line terminators; when it
succeeds it returns the text before the first left bracket and the text
between the first left bracket and the final right bracket. -/
theorem C7_validation_amended (id : List Char) :
    (getTypeAndInnerPart id = none ↔
      ¬ ∃ t m : List Char, id = t ++ '[' :: (m ++ [']']) ∧ t ≠ [] ∧ '[' ∉ t
        ∧ m.all isDotChar = true)
    ∧ (∀ t m : List Char, getTypeAndInnerPart id = some (t, m) →
        id = t ++ '[' :: (m ++ [']']) ∧ t ≠ [] ∧ '[' ∉ t ∧ m.all isDotChar = true
        ∧ getTypeFromId id = some t ∧ getInnerPartOfId id = some m) := by
  constructor
  · constructor
    · rintro hnone ⟨t, m, he, ht0, ht, hdot⟩
      rw [he, getTypeAndInnerPart_append t m ht0 ht hdot] at hnone
      exact absurd hnone (by simp)
    · intro hshape
      cases hp : getTypeAndInnerPart id with
      | none => rfl
      | some p =>
        obtain ⟨t, m⟩ := p
        obtain ⟨he, ht0, ht, hdot⟩ := getTypeAndInnerPart_sound hp
        exact absurd ⟨t, m, he, ht0, ht, hdot⟩ hshape
  · intro t m hp
    obtain ⟨he, ht0, ht, hdot⟩ := getTypeAndInnerPart_sound hp
    exact ⟨he, ht0, ht, hdot, by rw [getTypeFromId, hp]; rfl,
      by rw [getInnerPartOfId, hp]; rfl⟩

/-- C7 witness: the parser fails on `"invalid_id"` and succeeds on `"a[b]"`,
returning the type `"a"`. -/
theorem C7_validation_amended_witness :
    getTypeFromId "invalid_id".toList = none ∧ getTypeFromId "a[b]".toList = some ['a'] :=
  ⟨by decide, ((C7_validation_amended "a[b]".toList).2 ['a'] ['b'] (by decide)).2.2.2.2.1⟩

theorem bytes17_facts (bytes : List Nat) (b : Nat) (h17 : bytes.length = 17)
    (hlt : ∀ x ∈ bytes, x < 256) (hlast : bytes.getLast? = some b) :
    digitsToNat 256 bytes < 2 ^ 136
    ∧ digitsToNat 256 bytes % 16 = b % 16
    ∧ bytes = natToDigitsBE 256 17 (digitsToNat 256 bytes) := by
  refine ⟨?_, ?_, ?_⟩
  · have h := digitsToNat_lt 256 bytes (by norm_num) hlt
    rw [h17] at h
    calc digitsToNat 256 bytes < 256 ^ 17 := h
      _ = 2 ^ 136 := by norm_num
  · have hsplit : bytes = bytes.dropLast ++ [b] := eq_dropLast_concat_of_getLast hlast
    conv_lhs => rw [hsplit]
    rw [digitsToNat_append]
    have hb1 : digitsToNat 256 [b] = b := by simp [digitsToNat]
    rw [hb1]
    have : (256 : Nat) ^ [b].length = 256 := by simp
    rw [this]
    omega
  · have h := natToDigitsBE_digitsToNat 256 (by norm_num) bytes hlt 0
    rw [h17] at h
    simpa using h.symm

theorem decode_bytes_success (type : List Char) (bytes : List Nat) (b : Nat)
    (h17 : bytes.length = 17) (hlt : ∀ x ∈ bytes, x < 256)
    (hlast : bytes.getLast? = some b) (hb : b % 16 = 0) :
    ∃ m : List Char,
      decodeIdFromBytes type bytes = .ok (reconstructIdFromTypeAndInnerPart type m)
      ∧ m.length = 22 ∧ (∀ c ∈ m, c ∈ BASE_64_URL_ALPHABET)
      ∧ 16 * digitsToNat 64 (m.map b64UrlVal) = digitsToNat 256 bytes := by
  obtain ⟨hn, hmod, hbytes⟩ := bytes17_facts bytes b h17 hlt hlast
  have h640 : 4 * digitsToNat 256 bytes % 64 = 0 := by
    rw [show (64 : Nat) = 4 * 16 from by norm_num, Nat.mul_mod_mul_left]
    omega
  have hdall : ∀ v ∈ natToDigitsBE 64 23 (4 * digitsToNat 256 bytes), v < 64 :=
    natToDigitsBE_all_lt 64 (by norm_num) 23 _
  have hdiglen : (natToDigitsBE 64 23 (4 * digitsToNat 256 bytes)).length = 23 :=
    natToDigitsBE_length ..
  refine ⟨(natToDigitsBE 64 23 (4 * digitsToNat 256 bytes)).dropLast.map
    (fun v => b64ToB64Url (b64CharOfVal v)), ?_, ?_, ?_, ?_⟩
  · conv_lhs => rw [hbytes]
    rw [decode_eq_of_lt type _ hn, if_pos h640]
  · rw [List.length_map, List.length_dropLast, hdiglen]
  · intro c hc
    obtain ⟨v, hv, he⟩ := List.mem_map.mp hc
    rw [← he]
    exact url_char_mem v (hdall v (List.dropLast_subset _ hv))
  · have hmapval : ((natToDigitsBE 64 23 (4 * digitsToNat 256 bytes)).dropLast.map
        (fun v => b64ToB64Url (b64CharOfVal v))).map b64UrlVal
        = (natToDigitsBE 64 23 (4 * digitsToNat 256 bytes)).dropLast := by
      rw [List.map_map]
      have h : ∀ v ∈ (natToDigitsBE 64 23 (4 * digitsToNat 256 bytes)).dropLast,
          (b64UrlVal ∘ fun v => b64ToB64Url (b64CharOfVal v)) v = id v :=
        fun v hv => url_char_val v (hdall v (List.dropLast_subset _ hv))
      rw [List.map_congr_left h, List.map_id]
    rw [hmapval]
    have hgl : (natToDigitsBE 64 23 (4 * digitsToNat 256 bytes)).getLast?
        = some 0 := by
      rw [natToDigitsBE_getLast 64 23 _ (by norm_num), h640]
    have hsplit := eq_dropLast_concat_of_getLast hgl
    have htot : digitsToNat 64 (natToDigitsBE 64 23 (4 * digitsToNat 256 bytes))
        = 4 * digitsToNat 256 bytes := by
      rw [digitsToNat_natToDigitsBE]
      apply Nat.mod_eq_of_lt
      calc 4 * digitsToNat 256 bytes < 4 * 2 ^ 136 := by omega
        _ = 2 ^ 138 := by norm_num
        _ = 64 ^ 23 := by norm_num
    conv_lhs at htot => rw [hsplit]
    rw [digitsToNat_append] at htot
    have hb1 : digitsToNat 64 [0] = 0 := by simp [digitsToNat]
    rw [hb1, Nat.add_zero] at htot
    have hpow : (64 : Nat) ^ [(0 : Nat)].length = 64 := by simp
    rw [hpow] at htot
    omega

theorem decode_bytes_corrupt (type : List Char) (bytes : List Nat) (b : Nat)
    (h17 : bytes.length = 17) (hlt : ∀ x ∈ bytes, x < 256)
    (hlast : bytes.getLast? = some b) (hb : b % 16 ≠ 0) :
    decodeIdFromBytes type bytes = .error .corruptEncoding := by
  obtain ⟨hn, hmod, hbytes⟩ := bytes17_facts bytes b h17 hlt hlast
  have h640 : 4 * digitsToNat 256 bytes % 64 ≠ 0 := by
    rw [show (64 : Nat) = 4 * 16 from by norm_num, Nat.mul_mod_mul_left]
    omega
  conv_lhs => rw [hbytes]
  rw [decode_eq_of_lt type _ hn, if_neg h640]

/-- C10: exact decode-success condition.  For every type and every 17-entry
byte array, decoding succeeds exactly when the low 4 bits of the final byte
are all zero; on success the inner part of the returned identifier is a
22-character string over the URL-safe base64 alphabet, and otherwise the
decoder fails with the `CorruptEncoding` error. -/
theorem C10_decode_success_condition (type : List Char) (bytes : List Nat) (b : Nat)
    (h17 : bytes.length = 17) (hlt : ∀ x ∈ bytes, x < 256)
    (hlast : bytes.getLast? = some b) :
    (b % 16 = 0 → ∃ m : List Char,
      decodeIdFromBytes type bytes = .ok (reconstructIdFromTypeAndInnerPart type m)
      ∧ m.length = 22 ∧ ∀ c ∈ m, c ∈ BASE_64_URL_ALPHABET)
    ∧ (b % 16 ≠ 0 → decodeIdFromBytes type bytes = .error .corruptEncoding) := by
  constructor
  · intro hb
    obtain ⟨m, hdec, hlen, hmem, _⟩ := decode_bytes_success type bytes b h17 hlt hlast hb
    exact ⟨m, hdec, hlen, hmem⟩
  · intro hb
    exact decode_bytes_corrupt type bytes b h17 hlt hlast hb

/-- C10 witness: the all-zero 17-byte array decodes successfully (low 4 bits
of the final byte are zero), and the array ending in byte 1 is rejected. -/
theorem C10_decode_success_condition_witness :
    (∃ m : List Char,
      decodeIdFromBytes ['T'] (List.replicate 17 0) = .ok (reconstructIdFromTypeAndInnerPart ['T'] m)
      ∧ m.length = 22 ∧ ∀ c ∈ m, c ∈ BASE_64_URL_ALPHABET)
    ∧ decodeIdFromBytes ['T'] (List.replicate 16 0 ++ [1]) = .error .corruptEncoding :=
  ⟨(C10_decode_success_condition ['T'] (List.replicate 17 0) 0
      (by decide) (by decide) (by decide)).1 (by decide),
   (C10_decode_success_condition ['T'] (List.replicate 16 0 ++ [1]) 1
      (by decide) (by decide) (by decide)).2 (by decide)⟩

/-- C8: encoder errors and output size.  For every identifier on which the
parser's split succeeds, if the extracted inner part is not 22 characters the
encoder fails with the `LengthMismatch` error, and if the inner part is a
22-character string over the URL-safe base64 alphabet the encoder returns
exactly 17 bytes. -/
theorem C8_encoder_errors (id t m : List Char)
    (h : getTypeAndInnerPart id = some (t, m)) :
    (m.length ≠ 22 → encodeIdToBytes id = .error .lengthMismatch)
    ∧ (m.length = 22 → (∀ c ∈ m, c ∈ BASE_64_URL_ALPHABET) →
        ∃ bs : List Nat, encodeIdToBytes id = .ok bs ∧ bs.length = 17) := by
  constructor
  · intro hne
    rw [encodeIdToBytes, h]
    dsimp only
    rw [if_pos (show ¬ (m.length = NTID_LENGTH) from by rw [NTID_LENGTH]; exact hne)]
  · intro hlen hmem
    obtain ⟨he, ht0, ht, _⟩ := getTypeAndInnerPart_sound h
    refine ⟨natToDigitsBE 256 17 (16 * digitsToNat 64 (m.map b64UrlVal)), ?_,
      natToDigitsBE_length ..⟩
    rw [he]
    exact encode_inner t m ht0 ht hlen hmem

/-- C8 witness: the encoder rejects `"T[AB]"` with `LengthMismatch` and
returns 17 bytes for `"T[AAAAAAAAAAAAAAAAAAAAAA]"`. -/
theorem C8_encoder_errors_witness :
    encodeIdToBytes "T[AB]".toList = .error .lengthMismatch
    ∧ ∃ bs : List Nat, encodeIdToBytes "T[AAAAAAAAAAAAAAAAAAAAAA]".toList = .ok bs
        ∧ bs.length = 17 :=
  ⟨(C8_encoder_errors "T[AB]".toList ['T'] "AB".toList (by decide)).1 (by decide),
   (C8_encoder_errors "T[AAAAAAAAAAAAAAAAAAAAAA]".toList ['T']
      "AAAAAAAAAAAAAAAAAAAAAA".toList (by decide)).2 (by decide) (by decide)⟩

/-- C9: decoder errors.  For every type and byte array, decoding fails with
`LengthMismatch` unless there are exactly 17 bytes; given 17 bytes it fails
with `CorruptEncoding` exactly when the recovered base64url string (after
stripping `'='` padding) does not end with the zero-value symbol `'A'`, and
otherwise returns the reconstruction of the type with that string minus its
trailing `'A'`. -/
theorem C9_decoder_errors (type : List Char) (bytes : List Nat)
    (hlt : ∀ x ∈ bytes, x < 256) :
    (bytes.length ≠ 17 → decodeIdFromBytes type bytes = .error .lengthMismatch)
    ∧ (bytes.length = 17 →
        (decodeIdFromBytes type bytes = .error .corruptEncoding ↔
          ¬ (stripTrailingEq ((btoa bytes).map b64ToB64Url)).getLast? = some 'A')
        ∧ ((stripTrailingEq ((btoa bytes).map b64ToB64Url)).getLast? = some 'A' →
            decodeIdFromBytes type bytes = .ok (reconstructIdFromTypeAndInnerPart type
              (stripTrailingEq ((btoa bytes).map b64ToB64Url)).dropLast))) := by
  constructor
  · intro h
    rw [decodeIdFromBytes, if_pos h]
  · intro h17
    rw [decodeIdFromBytes, if_neg (by simp [h17])]
    dsimp only
    by_cases hA : (stripTrailingEq ((btoa bytes).map b64ToB64Url)).getLast? = some 'A'
    · rw [if_pos hA]
      refine ⟨?_, fun _ => rfl⟩
      constructor
      · intro hcon; exact absurd hcon (by simp)
      · intro hne; exact absurd hA hne
    · rw [if_neg hA]
      exact ⟨⟨fun _ => hA, fun _ => rfl⟩, fun hA2 => absurd hA2 hA⟩

/-- C9 witness: the empty byte array is rejected with `LengthMismatch`, and
the all-zero 17-byte array decodes to the reconstruction of its recovered
inner part. -/
theorem C9_decoder_errors_witness :
    decodeIdFromBytes ['T'] [] = .error .lengthMismatch
    ∧ decodeIdFromBytes ['T'] (List.replicate 17 0)
      = .ok (reconstructIdFromTypeAndInnerPart ['T']
          (stripTrailingEq ((btoa (List.replicate 17 0)).map b64ToB64Url)).dropLast) :=
  ⟨(C9_decoder_errors ['T'] [] (by decide)).1 (by decide),
   ((C9_decoder_errors ['T'] (List.replicate 17 0) (by decide)).2 (by decide)).2 (by decide)⟩

/-- C2 counterexample: the 17-byte array ending in byte 4 has its last two
bits zero (4 mod 4 = 0), so it belongs to the set the claim describes, yet
`decodeIdFromBytes` rejects it with `CorruptEncoding`: the decoder in fact
requires the low four bits of the final byte to be zero. -/
theorem C2_bijection_counterexample :
    (List.replicate 16 (0:Nat) ++ [4]).length = 17
    ∧ (∀ x ∈ List.replicate 16 (0:Nat) ++ [4], x < 256)
    ∧ 4 % 4 = 0
    ∧ decodeIdFromBytes ['T'] (List.replicate 16 (0:Nat) ++ [4]) = .error .corruptEncoding := by
  decide

/-- C2 (amended): the binary transcoding is a bijection between 22-character
strings over the 64-symbol alphabet and 17-byte arrays whose final byte has
its low 4 bits zero: every valid inner part encodes to such an array and
decodes back to itself, every such array decodes successfully and re-encodes
to itself, and every other 17-byte array is rejected with `CorruptEncoding`. -/
theorem C2_bijection_amended (type : List Char) (h1 : type ≠ []) (h2 : '[' ∉ type) :
    (∀ m : List Char, m.length = 22 → (∀ c ∈ m, c ∈ BASE_64_URL_ALPHABET) →
      ∃ bs : List Nat, encodeIdToBytes (reconstructIdFromTypeAndInnerPart type m) = .ok bs
        ∧ bs.length = 17 ∧ (∀ x ∈ bs, x < 256)
        ∧ (∀ b : Nat, bs.getLast? = some b → b % 16 = 0)
        ∧ decodeIdFromBytes type bs = .ok (reconstructIdFromTypeAndInnerPart type m))
    ∧ (∀ (bytes : List Nat) (b : Nat), bytes.length = 17 → (∀ x ∈ bytes, x < 256) →
        bytes.getLast? = some b → b % 16 = 0 →
        ∃ m : List Char,
          decodeIdFromBytes type bytes = .ok (reconstructIdFromTypeAndInnerPart type m)
          ∧ m.length = 22 ∧ (∀ c ∈ m, c ∈ BASE_64_URL_ALPHABET)
          ∧ encodeIdToBytes (reconstructIdFromTypeAndInnerPart type m) = .ok bytes)
    ∧ (∀ (bytes : List Nat) (b : Nat), bytes.length = 17 → (∀ x ∈ bytes, x < 256) →
        bytes.getLast? = some b → b % 16 ≠ 0 →
        decodeIdFromBytes type bytes = .error .corruptEncoding) := by
  refine ⟨?_, ?_, ?_⟩
  · intro m hlen hmem
    obtain ⟨he, hd⟩ := roundtrip_inner type m h1 h2 hlen hmem
    refine ⟨natToDigitsBE 256 17 (16 * digitsToNat 64 (m.map b64UrlVal)), ?_,
      natToDigitsBE_length .., natToDigitsBE_all_lt 256 (by norm_num) 17 _, ?_, ?_⟩
    · rw [reconstruct_eq]; exact he
    · intro b hb
      rw [natToDigitsBE_getLast 256 17 _ (by norm_num)] at hb
      rw [← Option.some.inj hb]
      rw [show (256:Nat) = 16 * 16 from by norm_num, Nat.mul_mod_mul_left]
      exact Nat.mul_mod_right 16 _
    · rw [reconstruct_eq]; exact hd
  · intro bytes b h17 hlt hlast hb
    obtain ⟨m, hdec, hlen, hmem, htot⟩ := decode_bytes_success type bytes b h17 hlt hlast hb
    obtain ⟨_, _, hbytes⟩ := bytes17_facts bytes b h17 hlt hlast
    refine ⟨m, hdec, hlen, hmem, ?_⟩
    obtain ⟨he, _⟩ := roundtrip_inner type m h1 h2 hlen hmem
    rw [reconstruct_eq, he, htot, ← hbytes]
  · intro bytes b h17 hlt hlast hb
    exact decode_bytes_corrupt type bytes b h17 hlt hlast hb

/-- C2 witness: the all-zero 17-byte array (final byte's low 4 bits zero)
decodes successfully to an identifier whose inner part re-encodes to the same
bytes. -/
theorem C2_bijection_amended_witness :
    ∃ m : List Char, decodeIdFromBytes ['T'] (List.replicate 17 0)
        = .ok (reconstructIdFromTypeAndInnerPart ['T'] m)
      ∧ m.length = 22 ∧ (∀ c ∈ m, c ∈ BASE_64_URL_ALPHABET)
      ∧ encodeIdToBytes (reconstructIdFromTypeAndInnerPart ['T'] m)
        = .ok (List.replicate 17 0) :=
  (C2_bijection_amended ['T'] (by decide) (by decide)).2.1 (List.replicate 17 0) 0
    (by decide) (by decide) (by decide) (by decide)

end Ntid
